import Mathlib

/-!
Shallow embedding of the dendrite sqlite3 `syncapi_invite_events` table
(`src/unnamed/part_000`) and of the federation destination ledger described
by the specification (only its constructor appears under
`src/federationapi/storage/postgres/storage.go`).

Modelling conventions:
* `types.StreamPosition` (int64) is embedded as `Int`; the counter only ever
  increments by one, so no overflow arithmetic is involved.
* The `headered_event_json` TEXT column stores `json.Marshal(inviteEvent)`;
  `SelectInviteEventsInRange` unmarshals it back.  JSON round-trips, so the
  row stores the event value itself.
* A database error from `ExecContext`/`QueryContext` is a storage-layer
  failure outside the modelled logic (spec section 7a); the embedded
  operations therefore return plain values.  A Go nil-pointer dereference
  (a panic, not an error) is modelled as `Option.none`.
-/

namespace Dendrite

/-- The parts of `gomatrixserverlib.HeaderedEvent` the invite table reads:
`RoomID()`, `EventID()`, and `StateKey()` (a possibly-nil pointer, hence
`Option`).  `payload` stands for the rest of the serialized event. -/
structure HeaderedEvent where
  roomID : String
  eventID : String
  stateKey : Option String
  payload : String
deriving DecidableEq, Repr

/-- One row of `syncapi_invite_events`:
`(id, event_id, room_id, target_user_id, headered_event_json, deleted)`. -/
structure InviteRow where
  id : Int
  eventID : String
  roomID : String
  targetUserID : String
  event : HeaderedEvent
  deleted : Bool
deriving DecidableEq, Repr

/-- The database state seen by `inviteEventsStatements`: the table rows plus
the shared invite stream-position counter. -/
structure InviteDB where
  rows : List InviteRow
  nextID : Int
deriving DecidableEq, Repr

/-- Modelled from the spec: `streamIDStatements.nextInviteID` is not part of
the shown source.  Per spec section 3 (`StreamPosition`) and section 9, it is
an atomic counter read-and-increment executed inside the caller's
transaction, returning the freshly minted position. -/
def nextInviteID (db : InviteDB) : Int × InviteDB :=
  (db.nextID + 1, { db with nextID := db.nextID + 1 })

/-- The row written by `insertInviteEventSQL` for stream position `p`,
state key `u` and event `e` (the `deleted` column is literal `false`). -/
def mkRow (p : Int) (u : String) (e : HeaderedEvent) : InviteRow :=
  { id := p, eventID := e.eventID, roomID := e.roomID, targetUserID := u,
    event := e, deleted := false }

/-- `InsertInviteEvent`: mints a stream position via `nextInviteID`, then
executes `insertInviteEventSQL` with `*inviteEvent.StateKey()` as the target
user.  A nil `StateKey` makes the Go code panic at the dereference; that
fault is `none`. -/
def InsertInviteEvent (db : InviteDB) (ev : HeaderedEvent) :
    Option (Int × InviteDB) :=
  let p := nextInviteID db
  match ev.stateKey with
  | none => none
  | some sk =>
      some (p.1, { p.2 with rows := p.2.rows ++ [mkRow p.1 sk ev] })

/-- The per-row effect of `deleteInviteEventSQL`
(`UPDATE syncapi_invite_events SET deleted=true, id=$1
WHERE event_id = $2 AND deleted=false`). -/
def retireRow (pos : Int) (e : String) (r : InviteRow) : InviteRow :=
  if r.eventID = e ∧ r.deleted = false then
    { r with deleted := true, id := pos }
  else r

/-- `DeleteInviteEvent`: mints a fresh stream position, then runs
`deleteInviteEventSQL` with it, returning the minted position. -/
def DeleteInviteEvent (db : InviteDB) (e : String) : Int × InviteDB :=
  let p := nextInviteID db
  (p.1, { p.2 with rows := p.2.rows.map (retireRow p.1 e) })

/-- The `WHERE` clause of `selectInviteEventsInRangeSQL`:
`target_user_id = $1 AND id > $2 AND id <= $3`. -/
def rowInRange (u : String) (low high : Int) (r : InviteRow) : Bool :=
  decide (r.targetUserID = u ∧ low < r.id ∧ r.id ≤ high)

/-- The `ORDER BY id DESC` ordering of `selectInviteEventsInRangeSQL`. -/
def descById (a b : InviteRow) : Prop := b.id ≤ a.id

instance : DecidableRel descById := fun a b =>
  inferInstanceAs (Decidable (b.id ≤ a.id))

instance : IsTotal InviteRow descById := ⟨fun a b => le_total b.id a.id⟩

instance : IsTrans InviteRow descById := ⟨fun _ _ _ h1 h2 => le_trans h2 h1⟩

/-- The rows produced by `selectInviteEventsInRangeSQL`: the rows matching
the `WHERE` clause, ordered by `id` descending. -/
def queryRows (db : InviteDB) (u : String) (low high : Int) : List InviteRow :=
  List.insertionSort descById (db.rows.filter (rowInRange u low high))

/-- The `rows.Next()` loop of `SelectInviteEventsInRange`: rows already
classified for a room are skipped (the query is ordered by `id DESC`, so the
first row seen for a room has the highest stream position); otherwise the
row's event goes to `retired` when `deleted` and to `result` otherwise.
The two Go maps are association lists read through `List.lookup`. -/
def scanRowsAux : List InviteRow → List (String × HeaderedEvent) →
    List (String × HeaderedEvent) →
    List (String × HeaderedEvent) × List (String × HeaderedEvent)
  | [], result, retired => (result, retired)
  | r :: rest, result, retired =>
    if (List.lookup r.roomID retired).isSome
        || (List.lookup r.roomID result).isSome then
      scanRowsAux rest result retired
    else if r.deleted then
      scanRowsAux rest result ((r.roomID, r.event) :: retired)
    else
      scanRowsAux rest ((r.roomID, r.event) :: result) retired

/-- `SelectInviteEventsInRange`: runs the range query and folds the rows
into the `(result, retired)` maps of active and retired invites. -/
def SelectInviteEventsInRange (db : InviteDB) (u : String) (low high : Int) :
    List (String × HeaderedEvent) × List (String × HeaderedEvent) :=
  scanRowsAux (queryRows db u low high) [] []

/-- A sequence of `InsertInviteEvent` calls, returning the minted stream
positions in call order together with the final database state. -/
def insertAll (db : InviteDB) : List HeaderedEvent →
    Option (List Int × InviteDB)
  | [] => some ([], db)
  | e :: rest =>
    match InsertInviteEvent db e with
    | none => none
    | some (p, db1) =>
      match insertAll db1 rest with
      | none => none
      | some (ps, db2) => some (p :: ps, db2)

/-! Helper lemmas about the invite-table operations. -/

theorem retireRow_eq_self {pos : Int} {e : String} {r : InviteRow}
    (h : ¬(r.eventID = e ∧ r.deleted = false)) : retireRow pos e r = r := by
  unfold retireRow
  exact if_neg h

theorem retireRow_retireRow (p2 p1 : Int) (e : String) (r : InviteRow) :
    retireRow p2 e (retireRow p1 e r) = retireRow p1 e r := by
  by_cases h : r.eventID = e ∧ r.deleted = false
  · simp [retireRow, h]
  · simp [retireRow, h]

/-- Running `deleteInviteEventSQL` a second time for the same event id
changes no row: the first run left no row with `deleted = false` and a
matching `event_id`. -/
theorem deleteInviteEvent_idem (db : InviteDB) (e : String) :
    (DeleteInviteEvent (DeleteInviteEvent db e).2 e).2.rows
      = (DeleteInviteEvent db e).2.rows := by
  simp only [DeleteInviteEvent, nextInviteID]
  simp only [List.map_map]
  apply List.map_congr_left
  intro r _
  exact retireRow_retireRow _ _ e r

/-! Concrete events and databases used by the witness theorems. -/

def evA : HeaderedEvent :=
  { roomID := "!r1:hs", eventID := "$e1", stateKey := some "@u:hs",
    payload := "pA" }

def evB : HeaderedEvent :=
  { roomID := "!r2:hs", eventID := "$e2", stateKey := some "@u:hs",
    payload := "pB" }

def exDB2 : InviteDB := { rows := [], nextID := 0 }

def exDB2' : InviteDB := { rows := [mkRow 1 "@u:hs" evA], nextID := 1 }

def exDB5 : InviteDB :=
  { rows := [mkRow 1 "@u:hs" evA, mkRow 2 "@u:hs" evB], nextID := 2 }

def exDB10 : InviteDB :=
  { rows := [{ mkRow 1 "@u:hs" evA with deleted := true },
             mkRow 2 "@u:hs" evB], nextID := 5 }

/-! Claim theorems. -/

/-- C2: every insert mints its stream position from the shared counter in
the same atomic step as the row write it numbers: when `InsertInviteEvent`
returns position `pos`, the post-state contains exactly the old rows plus
the row written under `pos`, and the counter equals `pos`, so a reader
observing `pos` observes that row. -/
theorem C2_atomicMint (db : InviteDB) (ev : HeaderedEvent) (pos : Int)
    (db' : InviteDB) (h : InsertInviteEvent db ev = some (pos, db')) :
    pos = db.nextID + 1 ∧ db'.nextID = pos ∧
    ∃ sk, ev.stateKey = some sk ∧ db'.rows = db.rows ++ [mkRow pos sk ev] := by
  unfold InsertInviteEvent nextInviteID at h
  cases hsk : ev.stateKey with
  | none => rw [hsk] at h; exact absurd h (by simp)
  | some sk =>
    rw [hsk] at h
    simp only [Option.some.injEq, Prod.mk.injEq] at h
    obtain ⟨hpos, hdb⟩ := h
    subst hpos hdb
    exact ⟨rfl, rfl, sk, rfl, rfl⟩

/-- Witness for C2 at a concrete insert into the empty database. -/
theorem C2_witness :
    (1 : Int) = exDB2.nextID + 1 ∧ exDB2'.nextID = 1 ∧
    ∃ sk, evA.stateKey = some sk ∧
      exDB2'.rows = exDB2.rows ++ [mkRow 1 sk evA] :=
  C2_atomicMint exDB2 evA 1 exDB2' rfl

/-- C9: `InsertInviteEvent` dereferences `inviteEvent.StateKey()`
unconditionally, so it faults (modelled as `none`) exactly when the state
key is absent, and succeeds whenever the state key is present. -/
theorem C9_stateKeyPrecondition (db : InviteDB) (ev : HeaderedEvent) :
    (InsertInviteEvent db ev).isSome ↔ ev.stateKey.isSome := by
  cases h : ev.stateKey <;> simp [InsertInviteEvent, h]

/-- C10: a delete for an event id with no matching undeleted row still
advances the shared counter, changes no row, and returns the freshly
minted position (the model's return carries no error, matching the Go
code's `nil` error on a zero-row update). -/
theorem C10_vacuousDelete (db : InviteDB) (e : String)
    (hvac : ∀ r ∈ db.rows, r.eventID = e → r.deleted = true) :
    DeleteInviteEvent db e
      = (db.nextID + 1, { rows := db.rows, nextID := db.nextID + 1 }) := by
  have hid : ∀ r ∈ db.rows, retireRow (db.nextID + 1) e r = r := by
    intro r hr
    apply retireRow_eq_self
    rintro ⟨h1, h2⟩
    rw [hvac r hr h1] at h2
    cases h2
  have hmap : db.rows.map (retireRow (db.nextID + 1) e) = db.rows := by
    calc db.rows.map (retireRow (db.nextID + 1) e)
        = db.rows.map id := List.map_congr_left hid
      _ = db.rows := List.map_id db.rows
  simp only [DeleteInviteEvent, nextInviteID]
  rw [hmap]

/-- Witness for C10 on a database whose only matching row is already
retired. -/
theorem C10_witness :
    DeleteInviteEvent exDB10 "$e1"
      = (exDB10.nextID + 1,
         { rows := exDB10.rows, nextID := exDB10.nextID + 1 }) :=
  C10_vacuousDelete exDB10 "$e1" (by decide)

/-- C5: when exactly one undeleted row matches the event id, the delete
retires exactly that row (marking it deleted under the freshly minted
position) and leaves every other row untouched; a second delete of the
same event id changes no row and still returns normally. -/
theorem C5_retireExactlyOnceIdem (db : InviteDB) (e : String)
    (l1 l2 : List InviteRow) (r : InviteRow)
    (hrows : db.rows = l1 ++ r :: l2)
    (hr : r.eventID = e ∧ r.deleted = false)
    (hone : ∀ x ∈ l1 ++ l2, ¬(x.eventID = e ∧ x.deleted = false)) :
    (DeleteInviteEvent db e).2.rows
      = l1 ++ { r with deleted := true, id := (DeleteInviteEvent db e).1 } :: l2
    ∧ (DeleteInviteEvent (DeleteInviteEvent db e).2 e).2.rows
        = (DeleteInviteEvent db e).2.rows := by
  refine ⟨?_, deleteInviteEvent_idem db e⟩
  simp only [DeleteInviteEvent, nextInviteID, hrows]
  rw [List.map_append, List.map_cons]
  have hl1 : l1.map (retireRow (db.nextID + 1) e) = l1 := by
    calc l1.map (retireRow (db.nextID + 1) e)
        = l1.map id := List.map_congr_left fun x hx =>
          retireRow_eq_self (hone x (List.mem_append_left l2 hx))
      _ = l1 := List.map_id l1
  have hl2 : l2.map (retireRow (db.nextID + 1) e) = l2 := by
    calc l2.map (retireRow (db.nextID + 1) e)
        = l2.map id := List.map_congr_left fun x hx =>
          retireRow_eq_self (hone x (List.mem_append_right l1 hx))
      _ = l2 := List.map_id l2
  rw [hl1, hl2, retireRow, if_pos hr]

/-- Witness for C5 on a two-row database with a single matching row. -/
theorem C5_witness :
    (DeleteInviteEvent exDB5 "$e1").2.rows
      = [] ++ { mkRow 1 "@u:hs" evA with deleted := true, id := (DeleteInviteEvent exDB5 "$e1").1 } :: [mkRow 2 "@u:hs" evB]
    ∧ (DeleteInviteEvent (DeleteInviteEvent exDB5 "$e1").2 "$e1").2.rows
        = (DeleteInviteEvent exDB5 "$e1").2.rows :=
  C5_retireExactlyOnceIdem exDB5 "$e1" [] [mkRow 2 "@u:hs" evB]
    (mkRow 1 "@u:hs" evA) rfl (by decide) (by decide)

/-! Lemmas about the `rows.Next()` scan loop. -/

/-- Once a room is classified in either accumulator map, later rows never
change either map's entry for it (the loop skips rows for seen rooms). -/
theorem scanRowsAux_preserves (rows : List InviteRow)
    (result retired : List (String × HeaderedEvent)) (k : String)
    (h : (List.lookup k result).isSome = true
        ∨ (List.lookup k retired).isSome = true) :
    List.lookup k (scanRowsAux rows result retired).1 = List.lookup k result
    ∧ List.lookup k (scanRowsAux rows result retired).2
        = List.lookup k retired := by
  induction rows generalizing result retired with
  | nil => exact ⟨rfl, rfl⟩
  | cons r rest ih =>
    by_cases hskip : ((List.lookup r.roomID retired).isSome
        || (List.lookup r.roomID result).isSome) = true
    · simp only [scanRowsAux, if_pos hskip]
      exact ih result retired h
    · have hnone : List.lookup r.roomID retired = none
          ∧ List.lookup r.roomID result = none := by
        rw [Bool.or_eq_true, not_or] at hskip
        obtain ⟨h1, h2⟩ := hskip
        exact ⟨Option.not_isSome_iff_eq_none.mp h1,
               Option.not_isSome_iff_eq_none.mp h2⟩
      have hkr : (k == r.roomID) = false := by
        apply beq_eq_false_iff_ne.mpr
        rintro rfl
        rcases h with h | h
        · rw [hnone.2] at h; cases h
        · rw [hnone.1] at h; cases h
      by_cases hd : r.deleted = true
      · simp only [scanRowsAux, if_neg hskip, if_pos hd]
        have hret : List.lookup k ((r.roomID, r.event) :: retired)
            = List.lookup k retired := by
          simp [List.lookup, hkr]
        have h' : (List.lookup k result).isSome = true
            ∨ (List.lookup k ((r.roomID, r.event) :: retired)).isSome = true := by
          rw [hret]; exact h
        obtain ⟨h1, h2⟩ := ih result ((r.roomID, r.event) :: retired) h'
        exact ⟨h1, by rw [h2, hret]⟩
      · simp only [scanRowsAux, if_neg hskip, if_neg hd]
        have hres : List.lookup k ((r.roomID, r.event) :: result)
            = List.lookup k result := by
          simp [List.lookup, hkr]
        have h' : (List.lookup k ((r.roomID, r.event) :: result)).isSome = true
            ∨ (List.lookup k retired).isSome = true := by
          rw [hres]; exact h
        obtain ⟨h1, h2⟩ := ih ((r.roomID, r.event) :: result) retired h'
        exact ⟨by rw [h1, hres], h2⟩

/-- The scan classifies a room by the FIRST row for it in the query's row
order: a deleted first row sends the room (with that row's event) to the
retired map, an undeleted one to the active map, and the other map never
acquires the room. -/
theorem scanRowsAux_first (rows : List InviteRow)
    (result retired : List (String × HeaderedEvent)) (k : String)
    (m : InviteRow)
    (hres : List.lookup k result = none)
    (hret : List.lookup k retired = none)
    (hfind : rows.find? (fun x => x.roomID == k) = some m) :
    (m.deleted = true →
        List.lookup k (scanRowsAux rows result retired).2 = some m.event
        ∧ List.lookup k (scanRowsAux rows result retired).1 = none)
    ∧ (m.deleted = false →
        List.lookup k (scanRowsAux rows result retired).1 = some m.event
        ∧ List.lookup k (scanRowsAux rows result retired).2 = none) := by
  induction rows generalizing result retired with
  | nil => cases hfind
  | cons r rest ih =>
    by_cases hk : r.roomID = k
    · have hbeq : (r.roomID == k) = true := beq_iff_eq.mpr hk
      have hrm : r = m := by
        simp only [List.find?, hbeq, Option.some.injEq] at hfind
        exact hfind
      subst hrm
      have hkbeq : (k == r.roomID) = true := beq_iff_eq.mpr hk.symm
      have hskip : ((List.lookup r.roomID retired).isSome
          || (List.lookup r.roomID result).isSome) = false := by
        rw [hk, hres, hret]
        rfl
      rw [Bool.eq_false_iff] at hskip
      by_cases hd : r.deleted = true
      · simp only [scanRowsAux, if_neg hskip, if_pos hd]
        have hret' : List.lookup k ((r.roomID, r.event) :: retired)
            = some r.event := by
          simp [List.lookup, hkbeq]
        obtain ⟨h1, h2⟩ := scanRowsAux_preserves rest result
          ((r.roomID, r.event) :: retired) k
          (Or.inr (by rw [hret']; rfl))
        constructor
        · intro _
          exact ⟨by rw [h2, hret'], by rw [h1, hres]⟩
        · intro hd'
          simp [hd] at hd'
      · simp only [scanRowsAux, if_neg hskip, if_neg hd]
        have hres' : List.lookup k ((r.roomID, r.event) :: result)
            = some r.event := by
          simp [List.lookup, hkbeq]
        obtain ⟨h1, h2⟩ := scanRowsAux_preserves rest
          ((r.roomID, r.event) :: result) retired k
          (Or.inl (by rw [hres']; rfl))
        constructor
        · intro hd'
          cases hd hd'
        · intro _
          exact ⟨by rw [h1, hres'], by rw [h2, hret]⟩
    · have hbeq : (r.roomID == k) = false := beq_eq_false_iff_ne.mpr hk
      have hkbeq : (k == r.roomID) = false :=
        beq_eq_false_iff_ne.mpr (Ne.symm hk)
      have hfind' : rest.find? (fun x => x.roomID == k) = some m := by
        simp only [List.find?, hbeq] at hfind
        exact hfind
      by_cases hskip : ((List.lookup r.roomID retired).isSome
          || (List.lookup r.roomID result).isSome) = true
      · simp only [scanRowsAux, if_pos hskip]
        exact ih result retired hres hret hfind'
      · by_cases hd : r.deleted = true
        · simp only [scanRowsAux, if_neg hskip, if_pos hd]
          refine ih result ((r.roomID, r.event) :: retired) hres ?_ hfind'
          simp [List.lookup, hkbeq, hret]
        · simp only [scanRowsAux, if_neg hskip, if_neg hd]
          refine ih ((r.roomID, r.event) :: result) retired ?_ hret hfind'
          simp [List.lookup, hkbeq, hres]

/-- In a list sorted by descending `id` whose `id`s are pairwise distinct,
the first row for a room is the row with the highest `id` for that room. -/
theorem find?_eq_of_max (L : List InviteRow) (k : String) (m : InviteRow)
    (hs : L.Pairwise descById)
    (hd : L.Pairwise (fun a b => a.id ≠ b.id))
    (hm : m ∈ L) (hk : m.roomID = k)
    (hmax : ∀ r ∈ L, r.roomID = k → r.id ≤ m.id) :
    L.find? (fun x => x.roomID == k) = some m := by
  induction L with
  | nil => cases hm
  | cons h t ih =>
    rw [List.pairwise_cons] at hs hd
    by_cases hh : h.roomID = k
    · have hbeq : (h.roomID == k) = true := beq_iff_eq.mpr hh
      have hhm : h = m := by
        rcases List.mem_cons.mp hm with rfl | hmt
        · rfl
        · exfalso
          have h1 : m.id ≤ h.id := hs.1 m hmt
          have h2 : h.id ≤ m.id := hmax h (List.mem_cons_self h t) hh
          exact hd.1 m hmt (le_antisymm h2 h1)
      subst hhm
      simp only [List.find?, hbeq]
    · have hbeq : (h.roomID == k) = false := beq_eq_false_iff_ne.mpr hh
      have hmt : m ∈ t := by
        rcases List.mem_cons.mp hm with rfl | hmt
        · cases hh hk
        · exact hmt
      simp only [List.find?, hbeq]
      exact ih hs.2 hd.2 hmt
        (fun r hr hrk => hmax r (List.mem_cons_of_mem h hr) hrk)

/-- C3: a retirement is its own event with a fresh position, and the range
scan classifies every room by exactly its highest-position row in the
scanned range: the room lands in the active map when that row is not
deleted and in the retired map when it is, and never in both. -/
theorem C3_lastWriterWins (db : InviteDB) (u : String) (low high : Int)
    (k : String) (m : InviteRow)
    (hdist : (db.rows.filter (rowInRange u low high)).Pairwise
        (fun a b => a.id ≠ b.id))
    (hm : m ∈ db.rows.filter (rowInRange u low high))
    (hk : m.roomID = k)
    (hmax : ∀ r ∈ db.rows.filter (rowInRange u low high),
        r.roomID = k → r.id ≤ m.id) :
    (m.deleted = true →
        List.lookup k (SelectInviteEventsInRange db u low high).2 = some m.event
        ∧ List.lookup k (SelectInviteEventsInRange db u low high).1 = none)
    ∧ (m.deleted = false →
        List.lookup k (SelectInviteEventsInRange db u low high).1 = some m.event
        ∧ List.lookup k (SelectInviteEventsInRange db u low high).2 = none) := by
  have hperm : (queryRows db u low high).Perm
      (db.rows.filter (rowInRange u low high)) :=
    List.perm_insertionSort descById (db.rows.filter (rowInRange u low high))
  have hs : (queryRows db u low high).Pairwise descById :=
    List.sorted_insertionSort descById (db.rows.filter (rowInRange u low high))
  have hdL : (queryRows db u low high).Pairwise (fun a b => a.id ≠ b.id) :=
    (hperm.pairwise_iff fun hxy => hxy.symm).mpr hdist
  have hmL : m ∈ queryRows db u low high := hperm.mem_iff.mpr hm
  have hmaxL : ∀ r ∈ queryRows db u low high, r.roomID = k → r.id ≤ m.id :=
    fun r hr hrk => hmax r (hperm.mem_iff.mp hr) hrk
  exact scanRowsAux_first (queryRows db u low high) [] [] k m rfl rfl
    (find?_eq_of_max (queryRows db u low high) k m hs hdL hmL hk hmaxL)

/-- Database for the C3 witness: room `!r1:hs` was invited at position 1
and retired at position 3, so its highest-position row is the retired one. -/
def exDB3 : InviteDB :=
  { rows := [mkRow 1 "@u:hs" evA,
             { mkRow 3 "@u:hs" evA with deleted := true },
             mkRow 2 "@u:hs" evB], nextID := 3 }

/-- Witness for C3: the retired row at position 3 outranks the invite at
position 1 for the same room, so the room is reported as retired. -/
theorem C3_witness :
    (({ mkRow 3 "@u:hs" evA with deleted := true} : InviteRow).deleted = true →
        List.lookup "!r1:hs" (SelectInviteEventsInRange exDB3 "@u:hs" 0 3).2
          = some ({ mkRow 3 "@u:hs" evA with deleted := true} : InviteRow).event
        ∧ List.lookup "!r1:hs" (SelectInviteEventsInRange exDB3 "@u:hs" 0 3).1
          = none)
    ∧ (({ mkRow 3 "@u:hs" evA with deleted := true} : InviteRow).deleted = false →
        List.lookup "!r1:hs" (SelectInviteEventsInRange exDB3 "@u:hs" 0 3).1
          = some ({ mkRow 3 "@u:hs" evA with deleted := true} : InviteRow).event
        ∧ List.lookup "!r1:hs" (SelectInviteEventsInRange exDB3 "@u:hs" 0 3).2
          = none) :=
  C3_lastWriterWins exDB3 "@u:hs" 0 3 "!r1:hs"
    { mkRow 3 "@u:hs" evA with deleted := true }
    (by decide) (by decide) (by decide) (by decide)

/-! Development for the enqueue-order and range-read claims. -/

/-- The rows written by a sequence of inserts for state key `u` starting
from counter value `start`: consecutive positions `start+1, start+2, ...`. -/
def newRows (start : Int) (u : String) : List HeaderedEvent → List InviteRow
  | [] => []
  | e :: rest => mkRow (start + 1) u e :: newRows (start + 1) u rest

/-- The database state after a run of inserts for state key `u`: the new
rows are appended and the shared counter has advanced by their number. -/
def afterInserts (db : InviteDB) (u : String) (evs : List HeaderedEvent) :
    InviteDB :=
  { rows := db.rows ++ newRows db.nextID u evs,
    nextID := db.nextID + (evs.length : Int) }

/-- Strict descending order on `id`, used to pin down the `ORDER BY id
DESC` output uniquely when `id`s are distinct. -/
def strictDescById (a b : InviteRow) : Prop := b.id < a.id

instance : IsAntisymm InviteRow strictDescById :=
  ⟨fun _ _ h1 h2 => absurd h1 (lt_asymm h2)⟩

theorem newRows_bounds (evs : List HeaderedEvent) (s : Int) (u : String) :
    ∀ r ∈ newRows s u evs,
      r.targetUserID = u ∧ s < r.id ∧ r.id ≤ s + (evs.length : Int) := by
  induction evs generalizing s with
  | nil => intro r hr; cases hr
  | cons e rest ih =>
    intro r hr
    rcases List.mem_cons.mp hr with rfl | hr'
    · refine ⟨rfl, ?_, ?_⟩
      · show s < s + 1
        omega
      · show s + 1 ≤ s + ((rest.length + 1 : Nat) : Int)
        push_cast
        omega
    · obtain ⟨h1, h2, h3⟩ := ih (s + 1) r hr'
      refine ⟨h1, by omega, ?_⟩
      have : s + 1 + ((rest.length : Nat) : Int)
          = s + ((rest.length + 1 : Nat) : Int) := by
        push_cast
        ring
      rw [this] at h3
      exact h3

theorem newRows_strictMono (evs : List HeaderedEvent) (s : Int) (u : String) :
    (newRows s u evs).Pairwise (fun a b => a.id < b.id) := by
  induction evs generalizing s with
  | nil => exact List.Pairwise.nil
  | cons e rest ih =>
    rw [newRows, List.pairwise_cons]
    refine ⟨fun r hr => ?_, ih (s + 1)⟩
    exact (newRows_bounds rest (s + 1) u r hr).2.1

theorem newRows_ids_chain (evs : List HeaderedEvent) (s : Int) (u : String) :
    ((newRows s u evs).map (fun r => r.id)).Chain' (fun a b => b = a + 1) := by
  induction evs generalizing s with
  | nil => exact List.chain'_nil
  | cons e rest ih =>
    cases rest with
    | nil => exact List.chain'_singleton _
    | cons e2 rest2 =>
      rw [newRows, newRows, List.map_cons, List.map_cons, List.chain'_cons]
      exact ⟨rfl, by
        have h := ih (s + 1)
        rw [newRows, List.map_cons] at h
        exact h⟩

/-- A run of `InsertInviteEvent` calls whose events all carry state key `u`
appends exactly the rows `newRows` describes and advances the counter by
the number of inserts, returning the consecutive freshly minted
positions. -/
theorem insertAll_eq (evs : List HeaderedEvent) (db : InviteDB) (u : String)
    (hsk : ∀ e ∈ evs, e.stateKey = some u) :
    insertAll db evs
      = some ((newRows db.nextID u evs).map (fun r => r.id),
          afterInserts db u evs) := by
  induction evs generalizing db with
  | nil =>
    simp only [insertAll, newRows, afterInserts, List.map_nil,
      List.append_nil, List.length_nil, Nat.cast_zero, Int.add_zero]
  | cons e rest ih =>
    have he : e.stateKey = some u := hsk e (List.mem_cons_self e rest)
    have hins : InsertInviteEvent db e
        = some (db.nextID + 1,
            InviteDB.mk (db.rows ++ [mkRow (db.nextID + 1) u e])
              (db.nextID + 1)) := by
      unfold InsertInviteEvent nextInviteID
      rw [he]
    have hrest := ih (InviteDB.mk (db.rows ++ [mkRow (db.nextID + 1) u e])
        (db.nextID + 1)) (fun x hx => hsk x (List.mem_cons_of_mem e hx))
    simp only [insertAll, hins, hrest, afterInserts, newRows, List.map_cons,
      List.length_cons, Option.some.injEq, Prod.mk.injEq, InviteDB.mk.injEq,
      List.append_assoc, List.singleton_append]
    refine ⟨rfl, trivial, ?_⟩
    push_cast
    ring

/-- With distinct, strictly increasing `id`s, the `ORDER BY id DESC` sort
of the freshly inserted rows is exactly their reverse. -/
theorem insertionSort_newRows (evs : List HeaderedEvent) (s : Int)
    (u : String) :
    List.insertionSort descById (newRows s u evs)
      = (newRows s u evs).reverse := by
  have hperm : (List.insertionSort descById (newRows s u evs)).Perm
      (newRows s u evs) := List.perm_insertionSort descById _
  have hsorted : (List.insertionSort descById (newRows s u evs)).Pairwise
      descById := List.sorted_insertionSort descById _
  have hne : (List.insertionSort descById (newRows s u evs)).Pairwise
      (fun a b => a.id ≠ b.id) :=
    (hperm.pairwise_iff fun hxy => hxy.symm).mpr
      ((newRows_strictMono evs s u).imp fun h => ne_of_lt h)
  have hstrict : (List.insertionSort descById (newRows s u evs)).Pairwise
      strictDescById :=
    (hsorted.and hne).imp fun ⟨h1, h2⟩ => lt_of_le_of_ne h1 (Ne.symm h2)
  have hrev : ((newRows s u evs).reverse).Pairwise strictDescById := by
    rw [List.pairwise_reverse]
    exact newRows_strictMono evs s u
  exact List.eq_of_perm_of_sorted
    (hperm.trans (List.reverse_perm (newRows s u evs)).symm) hstrict hrev

/-- C1 (amended): in one uninterrupted session, a run of inserts for the
same target user mints strictly increasing, gap-free (consecutive) stream
positions; the subsequent range read over exactly those positions returns
the inserted rows in DESCENDING position order, i.e. the exact reverse of
insertion order. -/
theorem C1_insertOrder (db : InviteDB) (u : String)
    (evs : List HeaderedEvent)
    (hwf : ∀ r ∈ db.rows, r.id ≤ db.nextID)
    (hsk : ∀ e ∈ evs, e.stateKey = some u) :
    insertAll db evs
      = some ((newRows db.nextID u evs).map (fun r => r.id),
          afterInserts db u evs)
    ∧ ((newRows db.nextID u evs).map (fun r => r.id)).Chain'
        (fun a b => b = a + 1)
    ∧ queryRows (afterInserts db u evs) u db.nextID
          (db.nextID + (evs.length : Int))
        = (newRows db.nextID u evs).reverse := by
  refine ⟨insertAll_eq evs db u hsk, newRows_ids_chain evs db.nextID u, ?_⟩
  unfold queryRows afterInserts
  have hfil : (db.rows ++ newRows db.nextID u evs).filter
      (rowInRange u db.nextID (db.nextID + (evs.length : Int)))
      = newRows db.nextID u evs := by
    rw [List.filter_append]
    have hold : db.rows.filter
        (rowInRange u db.nextID (db.nextID + (evs.length : Int))) = [] := by
      rw [List.filter_eq_nil_iff]
      intro r hr
      simp only [rowInRange, decide_eq_true_eq, not_and]
      intro _ hlow
      exact absurd hlow (not_lt.mpr (hwf r hr))
    have hnew : (newRows db.nextID u evs).filter
        (rowInRange u db.nextID (db.nextID + (evs.length : Int)))
        = newRows db.nextID u evs := by
      rw [List.filter_eq_self]
      intro r hr
      obtain ⟨h1, h2, h3⟩ := newRows_bounds evs db.nextID u r hr
      simp only [rowInRange, decide_eq_true_eq]
      exact ⟨h1, h2, h3⟩
    rw [hold, hnew, List.nil_append]
  rw [hfil, insertionSort_newRows]

/-- Witness for C1 (amended) on two concrete inserts into the empty
database. -/
theorem C1_witness :
    insertAll exDB2 [evA, evB]
      = some ((newRows exDB2.nextID "@u:hs" [evA, evB]).map (fun r => r.id),
          afterInserts exDB2 "@u:hs" [evA, evB])
    ∧ ((newRows exDB2.nextID "@u:hs" [evA, evB]).map (fun r => r.id)).Chain'
        (fun a b => b = a + 1)
    ∧ queryRows (afterInserts exDB2 "@u:hs" [evA, evB]) "@u:hs" exDB2.nextID
          (exDB2.nextID + (([evA, evB].length : Nat) : Int))
        = (newRows exDB2.nextID "@u:hs" [evA, evB]).reverse :=
  C1_insertOrder exDB2 "@u:hs" [evA, evB] (by decide) (by decide)

/-- The database state after inserting `evA` then `evB` into the empty
database: rows at positions 1 and 2, counter at 2. -/
def exDBq : InviteDB :=
  { rows := [mkRow 1 "@u:hs" evA, mkRow 2 "@u:hs" evB], nextID := 2 }

/-- Counterexample to C1 as stated: after inserting `evA` then `evB`
(positions 1 then 2), the range read covering both returns the rows in
DESCENDING position order `[2, 1]`, not the insertion order `[1, 2]`. -/
theorem C1_counterexample :
    insertAll exDB2 [evA, evB] = some ([1, 2], exDBq)
    ∧ queryRows exDBq "@u:hs" 0 2
        = [mkRow 2 "@u:hs" evB, mkRow 1 "@u:hs" evA]
    ∧ queryRows exDBq "@u:hs" 0 2
        ≠ [mkRow 1 "@u:hs" evA, mkRow 2 "@u:hs" evB] :=
  ⟨by decide, by decide, by decide⟩

/-- C4 (amended): the range query returns exactly the stored entries for
the target user whose sequence id is strictly after the lower bound AND at
most the upper bound, in DESCENDING sequence order; it is a pure read of
the database state (the embedded `SELECT` has no state effect by
construction). -/
theorem C4_rangeRead (db : InviteDB) (u : String) (low high : Int) :
    (queryRows db u low high).Perm
        (db.rows.filter (rowInRange u low high))
    ∧ (∀ r : InviteRow, r ∈ queryRows db u low high ↔
        (r ∈ db.rows ∧ r.targetUserID = u ∧ low < r.id ∧ r.id ≤ high))
    ∧ (queryRows db u low high).Pairwise descById := by
  have hperm : (queryRows db u low high).Perm
      (db.rows.filter (rowInRange u low high)) :=
    List.perm_insertionSort descById _
  refine ⟨hperm, fun r => ?_, List.sorted_insertionSort descById _⟩
  rw [hperm.mem_iff, List.mem_filter, rowInRange, decide_eq_true_eq]

/-- Counterexample to C4 as stated: with rows at positions 1 and 2, the
query over `(0, 2]` returns position 2 before position 1 (descending, not
ascending), and the query over `(0, 1]` omits the position-2 entry even
though its sequence id is strictly after the lower bound. -/
theorem C4_counterexample :
    queryRows exDBq "@u:hs" 0 2
      ≠ [mkRow 1 "@u:hs" evA, mkRow 2 "@u:hs" evB]
    ∧ (queryRows exDBq "@u:hs" 0 2).map (fun r => r.id) = [2, 1]
    ∧ mkRow 2 "@u:hs" evB ∉ queryRows exDBq "@u:hs" 0 1
    ∧ mkRow 2 "@u:hs" evB ∈ exDBq.rows
    ∧ (0 : Int) < (mkRow 2 "@u:hs" evB).id
    ∧ (mkRow 2 "@u:hs" evB).targetUserID = "@u:hs" :=
  ⟨by decide, by decide, by decide, by decide, by decide, by decide⟩
/-! Destination Ledger (spec sections 3 and 4.2).  Only the constructor
call `NewPostgresBlacklistTable` appears in the shown source, so the
ledger behaviour is modelled from the spec. -/

/-- Modelled from the spec: per-destination ledger record — failure count,
pending backoff delay, and the durable blacklist flag (spec section 3,
"Destination", and section 6, `destination_ledger`). -/
structure LedgerEntry where
  failCount : Nat
  backoff : Nat
  blacklisted : Bool
deriving DecidableEq, Repr

/-- A destination unseen by the ledger: no failures, no backoff, not
blacklisted (created on first pending delivery). -/
def initLedgerEntry : LedgerEntry :=
  { failCount := 0, backoff := 0, blacklisted := false }

/-- Modelled from the spec: the persisted destination ledger with its
configured failure-count threshold and backoff parameters (base delay,
doubling, capped at a maximum interval — spec section 4.2). -/
structure Ledger where
  threshold : Nat
  baseDelay : Nat
  maxDelay : Nat
  entries : List (String × LedgerEntry)
deriving DecidableEq, Repr

def getEntry (l : Ledger) (d : String) : LedgerEntry :=
  (List.lookup d l.entries).getD initLedgerEntry

def setEntry (l : Ledger) (d : String) (e : LedgerEntry) : Ledger :=
  { l with entries := (d, e) :: l.entries }

/-- Modelled from the spec: `RecordFailure(destination)` increments the
failure count, doubles the (capped) backoff delay, and transitions the
destination to blacklisted once the configured threshold is reached; an
already-blacklisted destination stays blacklisted.  Returns the new
backoff and the blacklist flag. -/
def RecordFailure (l : Ledger) (d : String) : Ledger × Nat × Bool :=
  let e := getEntry l d
  let fc := e.failCount + 1
  let bl := e.blacklisted || decide (l.threshold ≤ fc)
  let delay := min (l.baseDelay * 2 ^ (fc - 1)) l.maxDelay
  (setEntry l d { failCount := fc, backoff := delay, blacklisted := bl },
   delay, bl)

/-- Modelled from the spec: `RecordSuccess(destination)` resets the failure
count to zero and clears any backoff, but does NOT clear an existing
blacklist (spec sections 4.2 and 8). -/
def RecordSuccess (l : Ledger) (d : String) : Ledger :=
  let e := getEntry l d
  setEntry l d { failCount := 0, backoff := 0, blacklisted := e.blacklisted }

/-- Modelled from the spec: `IsBlacklisted(destination)` reads the durable
blacklist flag. -/
def IsBlacklisted (l : Ledger) (d : String) : Bool :=
  (getEntry l d).blacklisted

/-- Modelled from the spec: `ClearBlacklist(destination)` is the operator
action that removes the blacklist (and resets the destination's backoff
state, spec section 3: "may be reset when an operator removes a
blacklist"). -/
def ClearBlacklist (l : Ledger) (d : String) : Ledger :=
  setEntry l d { failCount := 0, backoff := 0, blacklisted := false }

/-- Modelled from the spec: a process restart re-derives all state from the
persisted relational store (spec section 5: "state is derived from the
ledger/queue on restart, not preserved as in-memory-only flags"); the
persisted ledger itself is unchanged. -/
def restartLedger (l : Ledger) : Ledger := l

/-- The ledger operations other than the operator's `ClearBlacklist`:
recorded failures, recorded successes, and process restarts. -/
inductive LedgerOp where
  | failure (d : String)
  | success (d : String)
  | restartProc
deriving DecidableEq, Repr

def applyOp (l : Ledger) : LedgerOp → Ledger
  | .failure d => (RecordFailure l d).1
  | .success d => RecordSuccess l d
  | .restartProc => restartLedger l

def applyOps (l : Ledger) (ops : List LedgerOp) : Ledger :=
  ops.foldl applyOp l

def recordFailures (l : Ledger) (d : String) : Nat → Ledger
  | 0 => l
  | n + 1 => (RecordFailure (recordFailures l d n) d).1

/-! Ledger lemmas. -/

theorem getEntry_setEntry_self (l : Ledger) (d : String) (e : LedgerEntry) :
    getEntry (setEntry l d e) d = e := by
  simp [getEntry, setEntry, List.lookup]

theorem getEntry_setEntry_ne (l : Ledger) (d d' : String) (e : LedgerEntry)
    (h : d' ≠ d) : getEntry (setEntry l d e) d' = getEntry l d' := by
  simp [getEntry, setEntry, List.lookup, beq_eq_false_iff_ne.mpr h]

theorem recordFailures_failCount (l : Ledger) (d : String) (n : Nat) :
    (getEntry (recordFailures l d n) d).failCount
      = (getEntry l d).failCount + n := by
  induction n with
  | zero => rfl
  | succ k ih =>
    show (getEntry (setEntry _ d _) d).failCount = _
    rw [getEntry_setEntry_self]
    simp only []
    omega

/-- Once the blacklist flag is set, none of `RecordFailure`,
`RecordSuccess` or a process restart clears it. -/
theorem applyOp_preserves_blacklist (l : Ledger) (d : String)
    (op : LedgerOp) (h : IsBlacklisted l d = true) :
    IsBlacklisted (applyOp l op) d = true := by
  cases op with
  | failure d' =>
    by_cases hd : d' = d
    · subst hd
      unfold applyOp RecordFailure IsBlacklisted
      rw [getEntry_setEntry_self]
      simp only []
      rw [Bool.or_eq_true]
      exact Or.inl h
    · unfold applyOp RecordFailure IsBlacklisted
      rw [getEntry_setEntry_ne _ _ _ _ (fun hc => hd hc.symm)]
      exact h
  | success d' =>
    by_cases hd : d' = d
    · subst hd
      unfold applyOp RecordSuccess IsBlacklisted
      rw [getEntry_setEntry_self]
      exact h
    · unfold applyOp RecordSuccess IsBlacklisted
      rw [getEntry_setEntry_ne _ _ _ _ (fun hc => hd hc.symm)]
      exact h
  | restartProc => exact h

theorem applyOps_preserves_blacklist (ops : List LedgerOp) (l : Ledger)
    (d : String) (h : IsBlacklisted l d = true) :
    IsBlacklisted (applyOps l ops) d = true := by
  induction ops generalizing l with
  | nil => exact h
  | cons op rest ih =>
    exact ih (applyOp l op) (applyOp_preserves_blacklist l d op h)

/-- C6: starting from zero consecutive failures, reaching the configured
threshold of recorded failures blacklists the destination; the flag then
survives any further failures, successes and process restarts (there is no
`ClearBlacklist` among those operations), and only `ClearBlacklist`
removes it. -/
theorem C6_blacklistThreshold (l : Ledger) (d : String)
    (h0 : (getEntry l d).failCount = 0) (hpos : 1 ≤ l.threshold) :
    IsBlacklisted (recordFailures l d l.threshold) d = true
    ∧ (∀ ops : List LedgerOp,
        IsBlacklisted (applyOps (recordFailures l d l.threshold) ops) d = true)
    ∧ (∀ l' : Ledger, IsBlacklisted (ClearBlacklist l' d) d = false) := by
  have hbl : IsBlacklisted (recordFailures l d l.threshold) d = true := by
    obtain ⟨k, hk⟩ : ∃ k, l.threshold = k + 1 :=
      ⟨l.threshold - 1, by omega⟩
    rw [hk]
    show IsBlacklisted (RecordFailure (recordFailures l d k) d).1 d = true
    have hth : (recordFailures l d k).threshold = l.threshold := by
      clear hk
      induction k with
      | zero => rfl
      | succ j ihj =>
        show (setEntry _ d _).threshold = l.threshold
        exact ihj
    have hfc : (getEntry (recordFailures l d k) d).failCount = k := by
      rw [recordFailures_failCount, h0]
      omega
    unfold RecordFailure IsBlacklisted
    rw [getEntry_setEntry_self]
    simp only []
    rw [Bool.or_eq_true]
    right
    rw [decide_eq_true_eq, hth, hfc, hk]
  refine ⟨hbl, fun ops => applyOps_preserves_blacklist ops _ d hbl, ?_⟩
  intro l'
  unfold IsBlacklisted ClearBlacklist
  rw [getEntry_setEntry_self]

/-- Ledger used by the C6 witness: threshold 2, destination fresh. -/
def exLedger : Ledger :=
  { threshold := 2, baseDelay := 1, maxDelay := 8, entries := [] }

/-- Witness for C6 with threshold 2 on a fresh destination. -/
theorem C6_witness :
    IsBlacklisted (recordFailures exLedger "remote.example" exLedger.threshold)
        "remote.example" = true
    ∧ (∀ ops : List LedgerOp,
        IsBlacklisted
          (applyOps (recordFailures exLedger "remote.example"
            exLedger.threshold) ops) "remote.example" = true)
    ∧ (∀ l' : Ledger,
        IsBlacklisted (ClearBlacklist l' "remote.example")
          "remote.example" = false) :=
  C6_blacklistThreshold exLedger "remote.example" (by decide) (by decide)

/-- C7: `RecordSuccess` resets the destination's failure count to zero and
clears its pending backoff, while leaving the destination's blacklist flag
exactly as it was. -/
theorem C7_recordSuccess (l : Ledger) (d : String) :
    (getEntry (RecordSuccess l d) d).failCount = 0
    ∧ (getEntry (RecordSuccess l d) d).backoff = 0
    ∧ (getEntry (RecordSuccess l d) d).blacklisted
        = (getEntry l d).blacklisted
    ∧ IsBlacklisted (RecordSuccess l d) d = IsBlacklisted l d := by
  unfold RecordSuccess IsBlacklisted
  rw [getEntry_setEntry_self]
  exact ⟨rfl, rfl, rfl, rfl⟩

end Dendrite
